import Mathlib

/-!
Verification of the Minesweeper AI inference engine (`minesweeper.py`).

The Python source is embedded shallowly.  `Sentence` objects become values of
a `Sentence` structure with value equality (the Python `__eq__`).  The
engine's mutable object graph — a list of sentence objects aliased by both
the `knowledge` list and the closure loop's iteration copy — is modelled by a
store of sentence values indexed by object id (its creation index), with the
knowledge base a list of ids; mutating one object is updating the store at
one id, and Python `list.remove` (which compares by `__eq__`) becomes a
removal of the first id whose stored value equals the target.  Python
integers are `Int`, board cells are pairs of integers, and Python sets of
cells are `Finset Cell`.  The unbounded `while` loops of `add_knowledge` and
`make_random_move` are given an explicit fuel parameter; running out of fuel
(the loop still running after that many iterations) is reported as a distinct
outcome from a normal return and from an uncaught Python exception.
-/

abbrev Cell : Type := ℤ × ℤ

/-- Embeds the Python class `Sentence`: a set of board cells (`self.cells`)
together with the number of those cells that are mines (`self.count`).
Value equality of the structure is the Python `__eq__` (equal cell sets and
equal counts). -/
structure Sentence where
  cells : Finset Cell
  count : ℤ
deriving DecidableEq

/-- Embeds `Sentence.known_mines`: if `self.count == len(self.cells)` return
`self.cells`, else the empty set.  The Python method is read-only, which the
pure function makes literal. -/
def Sentence.known_mines (s : Sentence) : Finset Cell :=
  if s.count = (s.cells.card : ℤ) then s.cells else ∅

/-- Embeds `Sentence.known_safes`: if `self.count == 0` return `self.cells`,
else the empty set. -/
def Sentence.known_safes (s : Sentence) : Finset Cell :=
  if s.count = 0 then s.cells else ∅

/-- Embeds `Sentence.mark_mine`: if `cell in self.cells`, remove it and
decrement `self.count`; otherwise do nothing. -/
def Sentence.mark_mine (s : Sentence) (c : Cell) : Sentence :=
  if c ∈ s.cells then ⟨s.cells.erase c, s.count - 1⟩ else s

/-- Embeds `Sentence.mark_safe`: if `cell in self.cells`, remove it with the
count unchanged; otherwise do nothing. -/
def Sentence.mark_safe (s : Sentence) (c : Cell) : Sentence :=
  if c ∈ s.cells then ⟨s.cells.erase c, s.count⟩ else s

/-- C8: `known_mines` returns the full cell set when the count equals the
number of cells and the empty set otherwise, and `known_safes` returns the
full cell set when the count is zero and the empty set otherwise.  Both are
pure functions of the sentence (the embedding is mutation-free by
construction, matching the read-only Python methods). -/
theorem sentence_known_mines_safes_spec (s : Sentence) :
    (s.count = (s.cells.card : ℤ) → s.known_mines = s.cells) ∧
    (s.count ≠ (s.cells.card : ℤ) → s.known_mines = ∅) ∧
    (s.count = 0 → s.known_safes = s.cells) ∧
    (s.count ≠ 0 → s.known_safes = ∅) := by
  refine ⟨fun h => ?_, fun h => ?_, fun h => ?_, fun h => ?_⟩ <;>
    simp [Sentence.known_mines, Sentence.known_safes, h]

/-- Concrete instance of `sentence_known_mines_safes_spec`, discharging its
hypotheses on sentences `({(0,0)}, 1)` and `({(0,0)}, 0)`. -/
theorem sentence_known_mines_safes_spec_witness :
    (Sentence.mk {((0 : ℤ), (0 : ℤ))} 1).known_mines = {((0 : ℤ), (0 : ℤ))} ∧
    (Sentence.mk {((0 : ℤ), (0 : ℤ))} 1).known_safes = ∅ ∧
    (Sentence.mk {((0 : ℤ), (0 : ℤ))} 0).known_safes = {((0 : ℤ), (0 : ℤ))} ∧
    (Sentence.mk {((0 : ℤ), (0 : ℤ))} 0).known_mines = ∅ := by
  refine ⟨(sentence_known_mines_safes_spec _).1 (by decide),
          (sentence_known_mines_safes_spec _).2.2.2 (by decide),
          (sentence_known_mines_safes_spec _).2.2.1 (by decide),
          (sentence_known_mines_safes_spec _).2.1 (by decide)⟩

/-- C9: `mark_mine` removes a member cell and decrements the count, and is a
no-op on a non-member; `mark_safe` removes a member cell with the count
unchanged, and is a no-op on a non-member; both are idempotent: applying the
same operation twice with the same cell equals applying it once. -/
theorem sentence_mark_ops_spec (s : Sentence) (c : Cell) :
    (c ∈ s.cells → s.mark_mine c = ⟨s.cells.erase c, s.count - 1⟩) ∧
    (c ∉ s.cells → s.mark_mine c = s) ∧
    (c ∈ s.cells → s.mark_safe c = ⟨s.cells.erase c, s.count⟩) ∧
    (c ∉ s.cells → s.mark_safe c = s) ∧
    ((s.mark_mine c).mark_mine c = s.mark_mine c) ∧
    ((s.mark_safe c).mark_safe c = s.mark_safe c) := by
  refine ⟨fun h => by simp [Sentence.mark_mine, h],
          fun h => by simp [Sentence.mark_mine, h],
          fun h => by simp [Sentence.mark_safe, h],
          fun h => by simp [Sentence.mark_safe, h], ?_, ?_⟩
  · by_cases h : c ∈ s.cells
    · simp [Sentence.mark_mine, h, Finset.not_mem_erase]
    · simp [Sentence.mark_mine, h]
  · by_cases h : c ∈ s.cells
    · simp [Sentence.mark_safe, h, Finset.not_mem_erase]
    · simp [Sentence.mark_safe, h]

/-- Concrete instance of `sentence_mark_ops_spec`, discharging the membership
and non-membership hypotheses on the sentence `({(0,0),(0,1)}, 1)`. -/
theorem sentence_mark_ops_spec_witness :
    ((Sentence.mk {((0 : ℤ), (0 : ℤ)), ((0 : ℤ), (1 : ℤ))} 1).mark_mine (0, 0) =
      Sentence.mk (({((0 : ℤ), (0 : ℤ)), ((0 : ℤ), (1 : ℤ))} : Finset Cell).erase (0, 0)) 0) ∧
    ((Sentence.mk {((0 : ℤ), (0 : ℤ)), ((0 : ℤ), (1 : ℤ))} 1).mark_safe (2, 2) =
      Sentence.mk {((0 : ℤ), (0 : ℤ)), ((0 : ℤ), (1 : ℤ))} 1) :=
  ⟨(sentence_mark_ops_spec _ _).1 (by decide),
   (sentence_mark_ops_spec _ _).2.2.2.1 (by decide)⟩

/-- Embeds the global state of the Python class `MinesweeperAI` (the
inference engine).  `store` holds the value of every `Sentence` object ever
created, indexed by its creation order; `knowledge` is the Python list
`self.knowledge`, as a list of object ids.  This indirection reproduces the
aliasing of the source, where the closure loop iterates over a shallow copy
of `self.knowledge` while the sentence objects themselves are mutated and
the list shrinks and grows. -/
structure AIState where
  height : ℤ
  width : ℤ
  store : List Sentence
  knowledge : List ℕ
  moves_made : Finset Cell
  mines : Finset Cell
  safes : Finset Cell
deriving DecidableEq

/-- Embeds `MinesweeperAI.__init__`: empty knowledge and empty cell sets. -/
def initEngine (height width : ℤ) : AIState :=
  ⟨height, width, [], [], ∅, ∅, ∅⟩

/-- Applies `f` to the store entries whose id lies in `ids` (the sentence
objects currently reachable from `self.knowledge`), leaving all other
(stale) objects untouched.  `n` is the id of the first list entry. -/
def updKnown (f : Sentence → Sentence) (ids : List ℕ) : ℕ → List Sentence → List Sentence
  | _, [] => []
  | n, s :: rest => (if n ∈ ids then f s else s) :: updKnown f ids (n + 1) rest

/-- Embeds `MinesweeperAI.mark_mine`: add the cell to `self.mines` and call
`Sentence.mark_mine` on every sentence in `self.knowledge`. -/
def AIState.mark_mine (st : AIState) (c : Cell) : AIState :=
  { st with mines := insert c st.mines,
            store := updKnown (fun s => s.mark_mine c) st.knowledge 0 st.store }

/-- Embeds `MinesweeperAI.mark_safe`: add the cell to `self.safes` and call
`Sentence.mark_safe` on every sentence in `self.knowledge`. -/
def AIState.mark_safe (st : AIState) (c : Cell) : AIState :=
  { st with safes := insert c st.safes,
            store := updKnown (fun s => s.mark_safe c) st.knowledge 0 st.store }

/-- The list of sentence values currently in the knowledge base, in list
order (what Python sees when it iterates or searches `self.knowledge`,
since membership and removal there go through `Sentence.__eq__`). -/
def knowledgeVals (st : AIState) : List Sentence :=
  st.knowledge.map (fun i => st.store.getD i ⟨∅, 0⟩)

/-- Well-formedness of the id indirection: every id in the knowledge list
denotes an existing store entry.  Every state reachable from `initEngine`
satisfies this. -/
def WS (st : AIState) : Prop :=
  ∀ i ∈ st.knowledge, i < st.store.length

instance : DecidablePred WS := fun st =>
  List.decidableBAll (fun i => i < st.store.length) st.knowledge

/-- C4 counterexample: the state reached from a fresh engine by
`mark_mine((0,0))` followed by `mark_safe((0,0))` — two of the operations
the claim quantifies over — has `(0,0)` in both `knownSafe` and
`knownMines`, so the two sets are not disjoint in every reachable state. -/
theorem disjointness_cex :
    ((0 : ℤ), (0 : ℤ)) ∈ (((initEngine 8 8).mark_mine (0, 0)).mark_safe (0, 0)).safes ∧
    ((0 : ℤ), (0 : ℤ)) ∈ (((initEngine 8 8).mark_mine (0, 0)).mark_safe (0, 0)).mines := by
  decide

/-- C4 amended: `mark_mine` preserves disjointness of `safes` and `mines`
whenever the marked cell is not already known safe, and `mark_safe`
preserves it whenever the cell is not already a known mine; the unconditional
invariant fails because nothing stops a cell from being marked both ways. -/
theorem disjointness_preserved (st : AIState) (c : Cell) :
    (st.safes ∩ st.mines = ∅ → c ∉ st.safes →
      (st.mark_mine c).safes ∩ (st.mark_mine c).mines = ∅) ∧
    (st.safes ∩ st.mines = ∅ → c ∉ st.mines →
      (st.mark_safe c).safes ∩ (st.mark_safe c).mines = ∅) := by
  constructor
  · intro hdisj hc
    have : st.safes ∩ insert c st.mines = ∅ := by
      ext x
      simp only [Finset.mem_inter, Finset.mem_insert, Finset.not_mem_empty, iff_false]
      rintro ⟨hxs, rfl | hxm⟩
      · exact hc hxs
      · exact absurd (Finset.mem_inter.mpr ⟨hxs, hxm⟩) (by simp [hdisj])
    simpa [AIState.mark_mine] using this
  · intro hdisj hc
    have : insert c st.safes ∩ st.mines = ∅ := by
      ext x
      simp only [Finset.mem_inter, Finset.mem_insert, Finset.not_mem_empty, iff_false]
      rintro ⟨rfl | hxs, hxm⟩
      · exact hc hxm
      · exact absurd (Finset.mem_inter.mpr ⟨hxs, hxm⟩) (by simp [hdisj])
    simpa [AIState.mark_safe] using this

/-- Concrete instance of `disjointness_preserved`: marking `(0,0)` as a mine
and then `(1,1)` as safe from a fresh engine keeps the two sets disjoint. -/
theorem disjointness_preserved_witness :
    (((initEngine 8 8).mark_mine (0, 0)).mark_safe (1, 1)).safes ∩
      (((initEngine 8 8).mark_mine (0, 0)).mark_safe (1, 1)).mines = ∅ :=
  (disjointness_preserved ((initEngine 8 8).mark_mine (0, 0)) (1, 1)).2
    (by decide) (by decide)

theorem updKnown_length (f : Sentence → Sentence) (ids : List ℕ) :
    ∀ (n : ℕ) (l : List Sentence), (updKnown f ids n l).length = l.length := by
  intro n l
  induction l generalizing n with
  | nil => rfl
  | cons s rest ih => simp [updKnown, ih]

theorem WS_mark_mine (st : AIState) (c : Cell) (h : WS st) : WS (st.mark_mine c) := by
  intro i hi
  simpa [AIState.mark_mine, updKnown_length] using h i hi

theorem WS_mark_safe (st : AIState) (c : Cell) (h : WS st) : WS (st.mark_safe c) := by
  intro i hi
  simpa [AIState.mark_safe, updKnown_length] using h i hi

/-- Embeds `self.knowledge.append(Sentence(...))`: a fresh sentence object is
created (a new store entry) and its id appended to the knowledge list. -/
def appendSentence (st : AIState) (s : Sentence) : AIState :=
  { st with store := st.store ++ [s], knowledge := st.knowledge ++ [st.store.length] }

theorem WS_appendSentence (st : AIState) (s : Sentence) (h : WS st) :
    WS (appendSentence st s) := by
  intro i hi
  simp only [appendSentence, List.mem_append, List.mem_singleton] at hi
  simp only [appendSentence, List.length_append, List.length_singleton]
  rcases hi with hi | rfl
  · exact Nat.lt_succ_of_lt (h i hi)
  · exact Nat.lt_succ_self _

theorem knowledgeVals_appendSentence (st : AIState) (s : Sentence) (h : WS st) :
    knowledgeVals (appendSentence st s) = knowledgeVals st ++ [s] := by
  simp only [knowledgeVals, appendSentence, List.map_append, List.map_cons, List.map_nil]
  congr 1
  · refine List.map_congr_left (fun i hi => ?_)
    exact List.getD_append _ _ _ _ (h i hi)
  · congr 1
    rw [List.getD_append_right st.store [s] _ st.store.length le_rfl]
    simp

/-- Embeds the guarded append pattern of the source
(`if new_sentence not in self.knowledge: self.knowledge.append(new_sentence)`,
used both for the observation sentence and for each inferred sentence):
the sentence is appended only when no value-equal sentence is present. -/
def addIfNew (st : AIState) (s : Sentence) : AIState :=
  if s ∈ knowledgeVals st then st else appendSentence st s

theorem WS_addIfNew (st : AIState) (s : Sentence) (h : WS st) : WS (addIfNew st s) := by
  unfold addIfNew
  split
  · exact h
  · exact WS_appendSentence st s h

/-- The eight neighbour offsets generated by the two nested `range` loops of
`add_knowledge`, with the `(m, n) == cell` case skipped. -/
def offsetsF : Finset (ℤ × ℤ) :=
  {(-1, -1), (-1, 0), (-1, 1), (0, -1), (0, 1), (1, -1), (1, 0), (1, 1)}

/-- The in-bounds neighbourhood scanned by the nested loops of
`add_knowledge`: the eight surrounding cells, skipping the cell itself and
any cell failing `0 <= m < height` or `0 <= n < width`. -/
def neighbors (height width : ℤ) (c : Cell) : Finset Cell :=
  (offsetsF.image (fun o => (c.1 + o.1, c.2 + o.2))).filter
    (fun p => 0 ≤ p.1 ∧ p.1 < height ∧ 0 ≤ p.2 ∧ p.2 < width)

theorem mem_neighbors_iff (height width : ℤ) (c p : Cell) :
    p ∈ neighbors height width c ↔
      p ≠ c ∧ |p.1 - c.1| ≤ 1 ∧ |p.2 - c.2| ≤ 1 ∧
      0 ≤ p.1 ∧ p.1 < height ∧ 0 ≤ p.2 ∧ p.2 < width := by
  constructor
  · intro hp
    simp only [neighbors, Finset.mem_filter, Finset.mem_image] at hp
    obtain ⟨⟨o, ho, rfl⟩, hb1, hb2, hb3, hb4⟩ := hp
    simp only [offsetsF, Finset.mem_insert, Finset.mem_singleton] at ho
    rcases ho with rfl | rfl | rfl | rfl | rfl | rfl | rfl | rfl <;>
      exact ⟨by simp [Prod.ext_iff], by simp [abs_le], by simp [abs_le],
             hb1, hb2, hb3, hb4⟩
  · rintro ⟨hne, hr, hc, hb1, hb2, hb3, hb4⟩
    rw [abs_le] at hr hc
    rw [ne_eq, Prod.ext_iff, not_and_or] at hne
    simp only [neighbors, Finset.mem_filter, Finset.mem_image]
    refine ⟨⟨(p.1 - c.1, p.2 - c.2), ?_, by simp⟩, hb1, hb2, hb3, hb4⟩
    simp only [offsetsF, Finset.mem_insert, Finset.mem_singleton, Prod.ext_iff]
    omega

theorem cell_not_mem_neighbors (height width : ℤ) (c : Cell) :
    c ∉ neighbors height width c := by
  intro h
  exact ((mem_neighbors_iff height width c c).mp h).1 rfl

/-- The engine state after steps 1 and 2 of `add_knowledge`:
`self.moves_made.add(cell)` then `self.mark_safe(cell)`. -/
def obsState (st : AIState) (cell : Cell) : AIState :=
  AIState.mark_safe { st with moves_made := insert cell st.moves_made } cell

/-- The cell set of the new observation sentence.  The source builds it in
the neighbour loop: an in-bounds neighbour goes into `neighbours` exactly
when it is neither in `self.mines` nor in `self.safes`; the loop's net
effect on the set is this double set difference. -/
def obsRemaining (st : AIState) (cell : Cell) : Finset Cell :=
  ((neighbors st.height st.width cell) \ (obsState st cell).mines) \ (obsState st cell).safes

/-- The adjusted count of the new observation sentence.  The source
decrements `count` once for each in-bounds neighbour found in `self.mines`;
the loop's net effect is subtracting the size of the intersection. -/
def obsAdjusted (st : AIState) (cell : Cell) (count : ℤ) : ℤ :=
  count - (((neighbors st.height st.width cell) ∩ (obsState st cell).mines).card : ℤ)

/-- Embeds the part of `add_knowledge` before the closure loop (source lines
201-218): record the move, mark the cell safe, build the neighbour
sentence, and append it to the knowledge base unless it is empty or a
value-equal sentence is already present. -/
def observeStep (st : AIState) (cell : Cell) (count : ℤ) : AIState :=
  if obsRemaining st cell = ∅ then obsState st cell
  else addIfNew (obsState st cell) ⟨obsRemaining st cell, obsAdjusted st cell count⟩

theorem moves_made_addIfNew (st : AIState) (s : Sentence) :
    (addIfNew st s).moves_made = st.moves_made := by
  unfold addIfNew appendSentence
  split <;> rfl

theorem safes_addIfNew (st : AIState) (s : Sentence) :
    (addIfNew st s).safes = st.safes := by
  unfold addIfNew appendSentence
  split <;> rfl

/-- C7: for every state, cell and count, the pre-closure part of
`add_knowledge` records the move, marks the cell safe, computes the in-bounds
8-neighbourhood of the cell excluding the cell itself, subtracts one from the
count for each neighbour already known to be a mine while excluding it,
excludes known-safe neighbours with no count adjustment, and appends the
sentence over the remaining unresolved neighbours exactly when that set is
non-empty and no value-equal sentence is already present. -/
theorem add_knowledge_observe_spec (st : AIState) (cell : Cell) (count : ℤ) (h : WS st) :
    (observeStep st cell count).moves_made = insert cell st.moves_made ∧
    (observeStep st cell count).safes = insert cell st.safes ∧
    (∀ p : Cell, p ∈ neighbors st.height st.width cell ↔
      p ≠ cell ∧ |p.1 - cell.1| ≤ 1 ∧ |p.2 - cell.2| ≤ 1 ∧
      0 ≤ p.1 ∧ p.1 < st.height ∧ 0 ≤ p.2 ∧ p.2 < st.width) ∧
    (∀ p : Cell, p ∈ obsRemaining st cell ↔
      p ∈ neighbors st.height st.width cell ∧ p ∉ st.mines ∧ p ∉ st.safes) ∧
    obsAdjusted st cell count =
      count - ((st.mines ∩ neighbors st.height st.width cell).card : ℤ) ∧
    knowledgeVals (observeStep st cell count) =
      knowledgeVals (obsState st cell) ++
        (if obsRemaining st cell ≠ ∅ ∧
            Sentence.mk (obsRemaining st cell) (obsAdjusted st cell count) ∉
              knowledgeVals (obsState st cell)
         then [Sentence.mk (obsRemaining st cell) (obsAdjusted st cell count)] else []) := by
  have hobs_safes : (obsState st cell).safes = insert cell st.safes := rfl
  have hobs_mines : (obsState st cell).mines = st.mines := rfl
  refine ⟨?_, ?_, fun p => mem_neighbors_iff st.height st.width cell p, ?_, ?_, ?_⟩
  · unfold observeStep
    split
    · rfl
    · rw [moves_made_addIfNew]
      rfl
  · unfold observeStep
    split
    · rfl
    · rw [safes_addIfNew]
      rfl
  · intro p
    simp only [obsRemaining, Finset.mem_sdiff, hobs_mines, hobs_safes, Finset.mem_insert]
    constructor
    · rintro ⟨⟨hnb, hm⟩, hs⟩
      exact ⟨hnb, hm, fun hps => hs (Or.inr hps)⟩
    · rintro ⟨hnb, hm, hs⟩
      refine ⟨⟨hnb, hm⟩, ?_⟩
      rintro (rfl | hps)
      · exact cell_not_mem_neighbors st.height st.width p hnb
      · exact hs hps
  · unfold obsAdjusted
    rw [hobs_mines, Finset.inter_comm]
  · have hws : WS (obsState st cell) := WS_mark_safe _ _ (fun i hi => h i hi)
    unfold observeStep
    by_cases hrem : obsRemaining st cell = ∅
    · simp [hrem]
    · by_cases hmem :
        Sentence.mk (obsRemaining st cell) (obsAdjusted st cell count) ∈
          knowledgeVals (obsState st cell)
      · simp [hrem, addIfNew, hmem]
      · rw [if_neg hrem]
        unfold addIfNew
        rw [if_neg hmem, knowledgeVals_appendSentence _ _ hws,
            if_pos (And.intro hrem hmem)]

/-- Concrete instance of `add_knowledge_observe_spec` on a fresh 3x3 engine,
observing cell `(1,1)` with count 2, plus its neighbour characterization
instantiated at `(0,0)`. -/
theorem add_knowledge_observe_spec_witness :
    (observeStep (initEngine 3 3) (1, 1) 2).moves_made =
      insert ((1 : ℤ), (1 : ℤ)) (initEngine 3 3).moves_made ∧
    (((0 : ℤ), (0 : ℤ)) ∈ neighbors (initEngine 3 3).height (initEngine 3 3).width (1, 1) ↔
      (((0 : ℤ), (0 : ℤ)) : Cell) ≠ (1, 1) ∧
      |(((0 : ℤ), (0 : ℤ)) : Cell).1 - (((1 : ℤ), (1 : ℤ)) : Cell).1| ≤ 1 ∧
      |(((0 : ℤ), (0 : ℤ)) : Cell).2 - (((1 : ℤ), (1 : ℤ)) : Cell).2| ≤ 1 ∧
      0 ≤ (((0 : ℤ), (0 : ℤ)) : Cell).1 ∧ (((0 : ℤ), (0 : ℤ)) : Cell).1 < (initEngine 3 3).height ∧
      0 ≤ (((0 : ℤ), (0 : ℤ)) : Cell).2 ∧ (((0 : ℤ), (0 : ℤ)) : Cell).2 < (initEngine 3 3).width) :=
  ⟨(add_knowledge_observe_spec (initEngine 3 3) (1, 1) 2 (by decide)).1,
   (add_knowledge_observe_spec (initEngine 3 3) (1, 1) 2 (by decide)).2.2.1 (0, 0)⟩

/-- The (up to) two sentences the subset-inference pass derives from one
ordered pair of knowledge-base entries, in source order: first the check
`following.cells < sentence.cells`, then `sentence.cells < following.cells`
(`<` on Python sets is strict subset), each guarded by the non-emptiness
test `if new_cells:`. -/
def derivedOfPair (s f : Sentence) : List Sentence :=
  (if f.cells ⊂ s.cells then
     (if s.cells \ f.cells ≠ ∅ then [⟨s.cells \ f.cells, s.count - f.count⟩] else [])
   else []) ++
  (if s.cells ⊂ f.cells then
     (if f.cells \ s.cells ≠ ∅ then [⟨f.cells \ s.cells, f.count - s.count⟩] else [])
   else [])

/-- The `infered_sentences` list built by the subset-inference pass: for
every index pair `i < j` of the current knowledge list, the derivations of
`(knowledge[i], knowledge[j])`, in iteration order. -/
def derivePairsAux : List Sentence → List Sentence
  | [] => []
  | s :: rest => (rest.map (derivedOfPair s)).flatten ++ derivePairsAux rest

/-- The final loop of a closure pass: each inferred sentence is appended to
the knowledge base unless a value-equal sentence is already present (the
membership test runs against the knowledge list as it grows), and
`possible_inference` is set whenever something is appended. -/
def appendNewGo : AIState → Bool → List Sentence → AIState × Bool
  | st, ch, [] => (st, ch)
  | st, ch, s :: rest =>
    if s ∈ knowledgeVals st then appendNewGo st ch rest
    else appendNewGo (appendSentence st s) true rest

/-- The whole subset-inference pass of the closure loop (source lines
242-260): derive from every unordered pair of current sentences, then append
the new ones. -/
def inferStep (st : AIState) (ch : Bool) : AIState × Bool :=
  appendNewGo st ch (derivePairsAux (knowledgeVals st))

theorem sdiff_ne_empty_of_ssubset {A B : Finset Cell} (hss : A ⊂ B) : B \ A ≠ ∅ :=
  fun hcon => hss.2 (Finset.sdiff_eq_empty_iff_subset.mp hcon)

theorem mem_derivedOfPair_left (A B : Sentence) (hss : A.cells ⊂ B.cells) :
    Sentence.mk (B.cells \ A.cells) (B.count - A.count) ∈ derivedOfPair B A := by
  unfold derivedOfPair
  rw [if_pos hss, if_pos (sdiff_ne_empty_of_ssubset hss)]
  simp

theorem mem_derivedOfPair_right (A B : Sentence) (hss : A.cells ⊂ B.cells) :
    Sentence.mk (B.cells \ A.cells) (B.count - A.count) ∈ derivedOfPair A B := by
  unfold derivedOfPair
  rw [if_pos hss, if_pos (sdiff_ne_empty_of_ssubset hss)]
  simp

theorem mem_derivePairsAux (l : List Sentence) (A B : Sentence)
    (hA : A ∈ l) (hB : B ∈ l) (hss : A.cells ⊂ B.cells) :
    Sentence.mk (B.cells \ A.cells) (B.count - A.count) ∈ derivePairsAux l := by
  induction l with
  | nil => cases hA
  | cons v rest ih =>
    have hAB : A ≠ B := fun hcon => (hcon ▸ hss).2 (Finset.Subset.refl _)
    unfold derivePairsAux
    rw [List.mem_append]
    rcases List.mem_cons.mp hA with rfl | hA2
    · rcases List.mem_cons.mp hB with rfl | hB2
      · exact absurd rfl hAB
      · exact Or.inl (List.mem_flatten.mpr
          ⟨derivedOfPair A B, List.mem_map_of_mem _ hB2, mem_derivedOfPair_right A B hss⟩)
    · rcases List.mem_cons.mp hB with rfl | hB2
      · exact Or.inl (List.mem_flatten.mpr
          ⟨derivedOfPair B A, List.mem_map_of_mem _ hA2, mem_derivedOfPair_left A B hss⟩)
      · exact Or.inr (ih hA2 hB2)

theorem mem_of_mem_derivePairsAux (l : List Sentence) (d : Sentence)
    (hd : d ∈ derivePairsAux l) :
    ∃ A B, A ∈ l ∧ B ∈ l ∧ A.cells ⊂ B.cells ∧
      d = Sentence.mk (B.cells \ A.cells) (B.count - A.count) := by
  induction l with
  | nil => cases hd
  | cons v rest ih =>
    unfold derivePairsAux at hd
    rcases List.mem_append.mp hd with hd | hd
    · obtain ⟨dl, hdl, hddl⟩ := List.mem_flatten.mp hd
      obtain ⟨f, hf, rfl⟩ := List.mem_map.mp hdl
      unfold derivedOfPair at hddl
      rcases List.mem_append.mp hddl with hdd | hdd
      · split at hdd
        · split at hdd
          · refine ⟨f, v, List.mem_cons_of_mem v hf, List.mem_cons_self v rest, by assumption,
              List.mem_singleton.mp hdd⟩
          · cases hdd
        · cases hdd
      · split at hdd
        · split at hdd
          · refine ⟨v, f, List.mem_cons_self v rest, List.mem_cons_of_mem v hf, by assumption,
              List.mem_singleton.mp hdd⟩
          · cases hdd
        · cases hdd
    · obtain ⟨A, B, hA, hB, hss, hdAB⟩ := ih hd
      exact ⟨A, B, List.mem_cons_of_mem v hA, List.mem_cons_of_mem v hB, hss, hdAB⟩

theorem appendNewGo_WS_and_sub (l : List Sentence) :
    ∀ (st : AIState) (ch : Bool), WS st →
      WS (appendNewGo st ch l).1 ∧
      ∀ v ∈ knowledgeVals st, v ∈ knowledgeVals (appendNewGo st ch l).1 := by
  induction l with
  | nil => exact fun st ch h => ⟨h, fun v hv => hv⟩
  | cons s rest ih =>
    intro st ch h
    unfold appendNewGo
    split
    · exact ih st ch h
    · obtain ⟨hw, hsub⟩ := ih (appendSentence st s) true (WS_appendSentence st s h)
      refine ⟨hw, fun v hv => hsub v ?_⟩
      rw [knowledgeVals_appendSentence st s h]
      exact List.mem_append_left _ hv

theorem appendNewGo_mem_of_mem_list (l : List Sentence) :
    ∀ (st : AIState) (ch : Bool) (d : Sentence), WS st → d ∈ l →
      d ∈ knowledgeVals (appendNewGo st ch l).1 := by
  induction l with
  | nil => intro st ch d h hd; cases hd
  | cons s rest ih =>
    intro st ch d h hd
    unfold appendNewGo
    split
    · rcases List.mem_cons.mp hd with rfl | hd2
      · exact (appendNewGo_WS_and_sub rest st ch h).2 d (by assumption)
      · exact ih st ch d h hd2
    · rcases List.mem_cons.mp hd with rfl | hd2
      · refine (appendNewGo_WS_and_sub rest (appendSentence st d) true
          (WS_appendSentence st d h)).2 d ?_
        rw [knowledgeVals_appendSentence st d h]
        exact List.mem_append_right _ (List.mem_singleton.mpr rfl)
      · exact ih (appendSentence st s) true d (WS_appendSentence st s h) hd2

/-- The outcome of a fuelled embedding of an unbounded Python loop:
normal return, an uncaught exception, or fuel exhausted (the loop was still
running after `fuel` iterations). -/
inductive RunResult where
  | ok (st : AIState)
  | exn
  | outOfFuel
deriving DecidableEq

/-- Embeds `self.knowledge.remove(sentence)` (Python `list.remove`): drop
the first id whose stored value equals `v`; `none` models the `ValueError`
raised when no element compares equal. -/
def removeFirstAux (store : List Sentence) (v : Sentence) : List ℕ → Option (List ℕ)
  | [] => none
  | i :: rest =>
    if store.getD i ⟨∅, 0⟩ = v then some rest
    else (removeFirstAux store v rest).map (fun k => i :: k)

/-- The net effect on the engine of the loop
`for block in sentence.known_mines().copy(): self.mark_mine(block)` over the
fixed snapshot `S`: the knowledge list does not change during this loop, and
on each sentence object in it the per-element updates of
`Sentence.mark_mine` commute, so the loop removes `S` from the object's cell
set and lowers its count by the number of removed members, and the engine
accumulates `S` into `self.mines`. -/
def AIState.markMinesSet (st : AIState) (S : Finset Cell) : AIState :=
  { st with mines := st.mines ∪ S,
            store := updKnown (fun s => ⟨s.cells \ S, s.count - ((s.cells ∩ S).card : ℤ)⟩)
                       st.knowledge 0 st.store }

/-- The net effect of `for block in sentence.known_safes().copy():
self.mark_safe(block)` over the fixed snapshot `S`, as in
`AIState.markMinesSet` but with counts unchanged. -/
def AIState.markSafesSet (st : AIState) (S : Finset Cell) : AIState :=
  { st with safes := st.safes ∪ S,
            store := updKnown (fun s => ⟨s.cells \ S, s.count⟩) st.knowledge 0 st.store }

/-- One iteration of the first phase of a closure pass (source lines
223-238), processing the sentence object `i` of the pass's iteration copy:
remove the observed cell from the object if present (setting
`possible_inference`), remove the object from the knowledge list if its cell
set has become empty (Python raises `ValueError`, modelled as `none`, if no
value-equal entry is present), then mark every cell of the object's current
`known_mines()` and then of its `known_safes()`, each mark setting
`possible_inference`.  The object is read back from the store at each step
because earlier iterations and the marking loops mutate it in place. -/
def processId (cell : Cell) (acc : AIState × Bool) (i : ℕ) : Option (AIState × Bool) :=
  let st0 := acc.1
  let s0 := st0.store.getD i ⟨∅, 0⟩
  let st1 := if cell ∈ s0.cells
    then { st0 with store := st0.store.set i ⟨s0.cells.erase cell, s0.count⟩ }
    else st0
  let ch1 := acc.2 || decide (cell ∈ s0.cells)
  let s1 := st1.store.getD i ⟨∅, 0⟩
  let ost2 := if s1.cells = ∅ then
      (removeFirstAux st1.store s1 st1.knowledge).map
        (fun k => { st1 with knowledge := k })
    else some st1
  match ost2 with
  | none => none
  | some st2 =>
    let s2 := st2.store.getD i ⟨∅, 0⟩
    let stM := st2.markMinesSet s2.known_mines
    let chM := ch1 || decide (s2.known_mines ≠ ∅)
    let s3 := stM.store.getD i ⟨∅, 0⟩
    let stS := stM.markSafesSet s3.known_safes
    let chS := chM || decide (s3.known_safes ≠ ∅)
    some (stS, chS)

/-- The first phase of a closure pass: iterate `processId` over the ids of
the shallow copy `self.knowledge.copy()` taken at the start of the pass. -/
def phase1Go (cell : Cell) : List ℕ → (AIState × Bool) → Option (AIState × Bool)
  | [], acc => some acc
  | i :: rest, acc =>
    match processId cell acc i with
    | none => none
    | some acc2 => phase1Go cell rest acc2

/-- One full pass of the closure loop of `add_knowledge`: the first phase
over the iteration copy, then the subset-inference pass on the resulting
knowledge list.  Returns the new state and the `possible_inference` flag;
`none` models an uncaught exception. -/
def onePass (cell : Cell) (st : AIState) : Option (AIState × Bool) :=
  match phase1Go cell st.knowledge (st, false) with
  | none => none
  | some (st1, ch) => some (inferStep st1 ch)

/-- The fixed-point closure loop of `add_knowledge` (source lines 220-260):
run passes until one reports `possible_inference = False`. -/
def closureLoop (cell : Cell) : ℕ → AIState → RunResult
  | 0, _ => RunResult.outOfFuel
  | fuel + 1, st =>
    match onePass cell st with
    | none => RunResult.exn
    | some (st2, true) => closureLoop cell fuel st2
    | some (st2, false) => RunResult.ok st2

/-- Embeds `MinesweeperAI.add_knowledge`: the observation step followed by
the closure loop. -/
def add_knowledge (fuel : ℕ) (st : AIState) (cell : Cell) (count : ℤ) : RunResult :=
  closureLoop cell fuel (observeStep st cell count)

/-- Feeds a sequence of observations to the engine through `add_knowledge`,
propagating an exception or fuel exhaustion of any call. -/
def runObs (fuel : ℕ) : List (Cell × ℤ) → AIState → RunResult
  | [], st => RunResult.ok st
  | (c, n) :: rest, st =>
    match add_knowledge fuel st c n with
    | RunResult.ok st2 => runObs fuel rest st2
    | r => r

/-- The knowledge base of the subset-inference test vector of the spec,
with the abstract cells 1..5 realized as board cells (0,1)..(0,5):
`A = ({1,2,3}, 1)` and `B = ({1,2,3,4,5}, 2)`. -/
def exSubsetPair : AIState :=
  AIState.mk 9 9
    [Sentence.mk {((0 : ℤ), (1 : ℤ)), ((0 : ℤ), (2 : ℤ)), ((0 : ℤ), (3 : ℤ))} 1,
     Sentence.mk {((0 : ℤ), (1 : ℤ)), ((0 : ℤ), (2 : ℤ)), ((0 : ℤ), (3 : ℤ)),
                  ((0 : ℤ), (4 : ℤ)), ((0 : ℤ), (5 : ℤ))} 2]
    [0, 1] ∅ ∅ ∅

/-- C1: in the subset-inference pass of the closure procedure, every
unordered pair of distinct sentences `A`, `B` of the knowledge base with
`A.cells` a strict subset of `B.cells` leads to the derived sentence
`(B.cells - A.cells, B.count - A.count)` being present in the knowledge
base afterwards — freshly appended when the (necessarily non-empty) derived
set was not already present by value; and in particular the closure run on
`A = ({1,2,3}, 1)`, `B = ({1,2,3,4,5}, 2)` terminates with `({4,5}, 1)`
derived. -/
theorem subset_inference_spec :
    (∀ (st : AIState) (ch : Bool) (A B : Sentence), WS st →
       A ∈ knowledgeVals st → B ∈ knowledgeVals st → A.cells ⊂ B.cells →
       Sentence.mk (B.cells \ A.cells) (B.count - A.count) ∈
         knowledgeVals (inferStep st ch).1) ∧
    (∃ st2, closureLoop (8, 8) 3 exSubsetPair = RunResult.ok st2 ∧
       Sentence.mk {((0 : ℤ), (4 : ℤ)), ((0 : ℤ), (5 : ℤ))} 1 ∈ knowledgeVals st2) := by
  constructor
  · intro st ch A B hws hA hB hss
    exact appendNewGo_mem_of_mem_list _ st ch _ hws
      (mem_derivePairsAux _ A B hA hB hss)
  · exact ⟨_, rfl, by decide⟩

/-- Concrete instance of `subset_inference_spec`: its general part applied
to the pair `({(0,1)}, 1)`, `({(0,1),(0,2)}, 3)` in a two-sentence
knowledge base, discharging every hypothesis. -/
theorem subset_inference_spec_witness :
    Sentence.mk
        (({((0 : ℤ), (1 : ℤ)), ((0 : ℤ), (2 : ℤ))} : Finset Cell) \ {((0 : ℤ), (1 : ℤ))})
        (3 - 1) ∈
      knowledgeVals
        (inferStep
          (AIState.mk 9 9
            [Sentence.mk {((0 : ℤ), (1 : ℤ))} 1,
             Sentence.mk {((0 : ℤ), (1 : ℤ)), ((0 : ℤ), (2 : ℤ))} 3]
            [0, 1] ∅ ∅ ∅) false).1 :=
  subset_inference_spec.1 _ false
    (Sentence.mk {((0 : ℤ), (1 : ℤ))} 1)
    (Sentence.mk {((0 : ℤ), (1 : ℤ)), ((0 : ℤ), (2 : ℤ))} 3)
    (by decide) (by decide) (by decide) (by decide)

/-- C5 counterexample: a single observation `add_knowledge((0,0), 5)` on a
fresh 1x5 engine terminates normally and leaves the sentence `({(0,1)}, 5)`
in the knowledge base, violating `count <= |cells|`; nothing in the code
checks or repairs the bound. -/
theorem constraint_bounds_cex :
    ∃ st2, add_knowledge 2 (initEngine 1 5) (0, 0) 5 = RunResult.ok st2 ∧
      Sentence.mk {((0 : ℤ), (1 : ℤ))} 5 ∈ knowledgeVals st2 ∧
      ¬((Sentence.mk {((0 : ℤ), (1 : ℤ))} 5).count ≤
          (((Sentence.mk {((0 : ℤ), (1 : ℤ))} 5).cells.card : ℤ))) :=
  ⟨_, rfl, by decide, by decide⟩

theorem erase_inter_of_mem {A M : Finset Cell} {c : Cell} :
    (A.erase c) ∩ M = (A ∩ M).erase c := by
  ext x
  simp only [Finset.mem_inter, Finset.mem_erase]
  tauto

/-- C5 amended: `0 <= count <= |cells|` holds for every sentence whose count
is consistent with an actual mine assignment (the count equals the number of
its cells lying in the mine set), and the two sentence simplifications
preserve that consistency when fed a true fact (`mark_mine` with an actual
mine, `mark_safe` with an actual non-mine); the code does not enforce the
bound itself, and a single inconsistent observation places a violating
sentence in a reachable knowledge base. -/
theorem constraint_bounds_amended (M : Finset Cell) (s : Sentence) (c : Cell)
    (h : s.count = ((s.cells ∩ M).card : ℤ)) :
    (0 ≤ s.count ∧ s.count ≤ (s.cells.card : ℤ)) ∧
    (c ∈ M → (s.mark_mine c).count = (((s.mark_mine c).cells ∩ M).card : ℤ)) ∧
    (c ∉ M → (s.mark_safe c).count = (((s.mark_safe c).cells ∩ M).card : ℤ)) := by
  refine ⟨⟨h ▸ Int.ofNat_nonneg _, h ▸ ?_⟩, fun hcM => ?_, fun hcM => ?_⟩
  · exact_mod_cast Finset.card_le_card (Finset.inter_subset_left)
  · by_cases hcs : c ∈ s.cells
    · have hmem : c ∈ s.cells ∩ M := Finset.mem_inter.mpr ⟨hcs, hcM⟩
      simp only [Sentence.mark_mine, if_pos hcs]
      rw [erase_inter_of_mem, Finset.card_erase_of_mem hmem, h]
      have : 1 ≤ (s.cells ∩ M).card := Finset.card_pos.mpr ⟨c, hmem⟩
      omega
    · simp only [Sentence.mark_mine, if_neg hcs]
      exact h
  · by_cases hcs : c ∈ s.cells
    · have hmem : c ∉ s.cells ∩ M := fun hx => hcM (Finset.mem_inter.mp hx).2
      simp only [Sentence.mark_safe, if_pos hcs]
      rw [erase_inter_of_mem, Finset.erase_eq_of_not_mem hmem]
      exact h
    · simp only [Sentence.mark_safe, if_neg hcs]
      exact h

/-- Concrete instance of `constraint_bounds_amended` with the mine set
`{(0,0)}` and the consistent sentence `({(0,0),(0,1)}, 1)`, discharging
every hypothesis. -/
theorem constraint_bounds_amended_witness :
    (0 ≤ (Sentence.mk {((0 : ℤ), (0 : ℤ)), ((0 : ℤ), (1 : ℤ))} 1).count ∧
      (Sentence.mk {((0 : ℤ), (0 : ℤ)), ((0 : ℤ), (1 : ℤ))} 1).count ≤
        (((Sentence.mk {((0 : ℤ), (0 : ℤ)), ((0 : ℤ), (1 : ℤ))} 1).cells.card : ℤ))) ∧
    ((Sentence.mk {((0 : ℤ), (0 : ℤ)), ((0 : ℤ), (1 : ℤ))} 1).mark_mine (0, 0)).count =
      ((((Sentence.mk {((0 : ℤ), (0 : ℤ)), ((0 : ℤ), (1 : ℤ))} 1).mark_mine (0, 0)).cells ∩
          {((0 : ℤ), (0 : ℤ))}).card : ℤ) :=
  ⟨(constraint_bounds_amended {((0 : ℤ), (0 : ℤ))}
      (Sentence.mk {((0 : ℤ), (0 : ℤ)), ((0 : ℤ), (1 : ℤ))} 1) (0, 0) (by decide)).1,
   (constraint_bounds_amended {((0 : ℤ), (0 : ℤ))}
      (Sentence.mk {((0 : ℤ), (0 : ℤ)), ((0 : ℤ), (1 : ℤ))} 1) (0, 0) (by decide)).2.1
     (by decide)⟩

/-- C6 counterexample: after the observations `((0,1), 1)` and `((0,3), 1)`
on a fresh 1x5 engine (both `add_knowledge` calls terminating normally),
the engine-level calls `mark_safe((0,0))` and `mark_safe((0,4))` mutate the
two distinct sentence objects into the same value, leaving the reachable
knowledge base with two value-equal entries `({(0,2)}, 1)`. -/
theorem knowledge_dedup_cex :
    ∃ st2, runObs 3 [((0, 1), 1), ((0, 3), 1)] (initEngine 1 5) = RunResult.ok st2 ∧
      knowledgeVals ((st2.mark_safe (0, 0)).mark_safe (0, 4)) =
        [Sentence.mk {((0 : ℤ), (2 : ℤ))} 1, Sentence.mk {((0 : ℤ), (2 : ℤ))} 1] ∧
      ¬(knowledgeVals ((st2.mark_safe (0, 0)).mark_safe (0, 4))).Nodup :=
  ⟨_, rfl, by decide, by decide⟩

theorem appendNewGo_nodup (l : List Sentence) :
    ∀ (st : AIState) (ch : Bool), WS st → (knowledgeVals st).Nodup →
      (knowledgeVals (appendNewGo st ch l).1).Nodup := by
  induction l with
  | nil => exact fun st ch _ hnd => hnd
  | cons s rest ih =>
    intro st ch hws hnd
    unfold appendNewGo
    split
    · exact ih st ch hws hnd
    case isFalse hmem =>
      refine ih (appendSentence st s) true (WS_appendSentence st s hws) ?_
      rw [knowledgeVals_appendSentence st s hws]
      refine List.Nodup.append hnd (List.nodup_singleton s) ?_
      intro a ha hb
      rw [List.mem_singleton] at hb
      subst hb
      exact hmem ha

/-- C6 amended: both insertion paths of `add_knowledge` run through the
membership guard, so adding a sentence value-equal to one already present
does not create a duplicate entry — the guarded insert is the identity when
an equal value is present, and the inference append pass preserves freedom
from duplicates; the unconditional "no two value-equal constraints in any
reachable state" fails because engine-level `mark_safe`/`mark_mine` mutate
sentences in place and can make two distinct entries value-equal. -/
theorem knowledge_dedup_amended (st : AIState) (s : Sentence) (ch : Bool)
    (l : List Sentence) (hws : WS st) :
    (s ∈ knowledgeVals st → addIfNew st s = st) ∧
    ((knowledgeVals st).Nodup → (knowledgeVals (appendNewGo st ch l).1).Nodup) :=
  ⟨fun hmem => if_pos hmem, fun hnd => appendNewGo_nodup l st ch hws hnd⟩

/-- Concrete instance of `knowledge_dedup_amended`: re-adding the sentence
`({(0,0)}, 1)` to a knowledge base already holding it changes nothing, and
the duplicate-free property survives an inference append of that value. -/
theorem knowledge_dedup_amended_witness :
    (addIfNew (AIState.mk 2 2 [Sentence.mk {((0 : ℤ), (0 : ℤ))} 1] [0] ∅ ∅ ∅)
        (Sentence.mk {((0 : ℤ), (0 : ℤ))} 1) =
      AIState.mk 2 2 [Sentence.mk {((0 : ℤ), (0 : ℤ))} 1] [0] ∅ ∅ ∅) ∧
    (knowledgeVals
        (appendNewGo (AIState.mk 2 2 [Sentence.mk {((0 : ℤ), (0 : ℤ))} 1] [0] ∅ ∅ ∅)
          false [Sentence.mk {((0 : ℤ), (0 : ℤ))} 1]).1).Nodup :=
  ⟨(knowledge_dedup_amended _ (Sentence.mk {((0 : ℤ), (0 : ℤ))} 1) false
      [Sentence.mk {((0 : ℤ), (0 : ℤ))} 1] (by decide)).1 (by decide),
   (knowledge_dedup_amended _ (Sentence.mk {((0 : ℤ), (0 : ℤ))} 1) false
      [Sentence.mk {((0 : ℤ), (0 : ℤ))} 1] (by decide)).2 (by decide)⟩

/-- Embeds `MinesweeperAI.make_random_move`.  The two `random.randint(0, h-1)`
and `random.randint(0, w-1)` draws of one statement produce one candidate
cell; randomness is modelled by an injected stream of cells, `k` being the
index of the next draw.  Each `while True` iteration draws a candidate
(line 293); if it is already moved-on or a known mine it draws one more
candidate (line 295); it then returns the latest candidate if that one is
fresh (lines 296-297) and otherwise starts the next iteration.  The source
has no statement returning `None` (its trailing `raise NotImplementedError`
is unreachable): the value `none` of this embedding only models fuel
exhaustion, i.e. the loop still running after `fuel` iterations. -/
def make_random_move (st : AIState) (stream : ℕ → Cell) : ℕ → ℕ → Option Cell
  | 0, _ => none
  | fuel + 1, k =>
    if stream k ∈ st.moves_made ∨ stream k ∈ st.mines then
      if stream (k + 1) ∉ st.moves_made ∧ stream (k + 1) ∉ st.mines then
        some (stream (k + 1))
      else make_random_move st stream fuel (k + 2)
    else
      if stream k ∉ st.moves_made ∧ stream k ∉ st.mines then some (stream k)
      else make_random_move st stream fuel (k + 1)

/-- C3: when every cell the random stream can produce is already moved-on
or a known mine — in particular whenever `moves_made` and `mines` together
cover the whole board — `make_random_move` never returns: for every fuel
bound the `while True` loop is still redrawing.  The code has no path that
returns `None`, contrary to the claim that `None` is returned exactly in
this situation. -/
theorem make_random_move_no_none (st : AIState) (stream : ℕ → Cell)
    (hsat : ∀ n, stream n ∈ st.moves_made ∨ stream n ∈ st.mines) :
    ∀ (fuel k : ℕ), make_random_move st stream fuel k = none := by
  intro fuel
  induction fuel with
  | zero => intro k; rfl
  | succ n ih =>
    intro k
    unfold make_random_move
    rw [if_pos (hsat k), if_neg]
    · exact ih (k + 2)
    · rintro ⟨h1, h2⟩
      rcases hsat (k + 1) with h | h
      · exact h1 h
      · exact h2 h

/-- Concrete instance of `make_random_move_no_none`: on a 1x1 board whose
only cell has been played, no amount of fuel produces a return value. -/
theorem make_random_move_no_none_witness :
    make_random_move (AIState.mk 1 1 [] [] {((0 : ℤ), (0 : ℤ))} ∅ ∅)
      (fun _ => (0, 0)) 5 0 = none :=
  make_random_move_no_none _ _ (fun _ => Or.inl (by decide)) 5 0

/-- C10: whenever `make_random_move` returns a cell — given that the random
draws are in range, as `random.randint(0, height-1)` and
`random.randint(0, width-1)` guarantee — the returned cell lies within the
board bounds, has not been played, and is not a known mine. -/
theorem make_random_move_valid (st : AIState) (stream : ℕ → Cell)
    (hstream : ∀ n, 0 ≤ (stream n).1 ∧ (stream n).1 < st.height ∧
                    0 ≤ (stream n).2 ∧ (stream n).2 < st.width) :
    ∀ (fuel k : ℕ) (c : Cell), make_random_move st stream fuel k = some c →
      0 ≤ c.1 ∧ c.1 < st.height ∧ 0 ≤ c.2 ∧ c.2 < st.width ∧
      c ∉ st.moves_made ∧ c ∉ st.mines := by
  intro fuel
  induction fuel with
  | zero => intro k c h; cases h
  | succ n ih =>
    intro k c h
    unfold make_random_move at h
    split at h
    · split at h
      case isTrue hfresh =>
        obtain rfl : stream (k + 1) = c := Option.some.inj h
        obtain ⟨hb1, hb2, hb3, hb4⟩ := hstream (k + 1)
        exact ⟨hb1, hb2, hb3, hb4, hfresh.1, hfresh.2⟩
      case isFalse _ => exact ih (k + 2) c h
    · split at h
      case isTrue hfresh =>
        obtain rfl : stream k = c := Option.some.inj h
        obtain ⟨hb1, hb2, hb3, hb4⟩ := hstream k
        exact ⟨hb1, hb2, hb3, hb4, hfresh.1, hfresh.2⟩
      case isFalse _ => exact ih (k + 1) c h

/-- Concrete instance of `make_random_move_valid`: on a fresh 1x1 engine
with the constant stream at `(0,0)`, the returned cell `(0,0)` is in bounds,
unplayed and not a known mine. -/
theorem make_random_move_valid_witness :
    (0 : ℤ) ≤ 0 ∧ (0 : ℤ) < 1 ∧ (0 : ℤ) ≤ 0 ∧ (0 : ℤ) < 1 ∧
    (((0 : ℤ), (0 : ℤ)) : Cell) ∉ (initEngine 1 1).moves_made ∧
    (((0 : ℤ), (0 : ℤ)) : Cell) ∉ (initEngine 1 1).mines :=
  make_random_move_valid (initEngine 1 1) (fun _ => (0, 0))
    (fun _ => ⟨by norm_num, by norm_num [initEngine], by norm_num,
               by norm_num [initEngine]⟩) 1 0 (0, 0) (by decide)

/-- First pumped cell of the non-termination trace on the 1x5 board:
`(0,1)`, the only in-bounds neighbour of the observed cell `(0,0)`. -/
def aCell : Cell := (0, 1)

/-- Second pumped cell of the non-termination trace: `(0,3)`, a neighbour
of the twice-observed cell `(0,2)`. -/
def bCell : Cell := (0, 3)

/-- Shape of every sentence of the pumped knowledge base: either one of the
two contradictory observation sentences over `{(0,1),(0,3)}` with count 7 or
4, or a derived singleton sentence over `(0,1)` or `(0,3)` whose count is
congruent to 2 modulo 3.  No sentence of this shape ever triggers a
`known_mines`/`known_safes` deduction (the counts avoid 0 and the cell-set
size), so the first phase of every closure pass is the identity. -/
abbrev goodVal (v : Sentence) : Prop :=
  (v.cells = {aCell, bCell} ∧ (v.count = 7 ∨ v.count = 4)) ∨
  ((v.cells = {aCell} ∨ v.cells = {bCell}) ∧ v.count % 3 = 2)

/-- Invariant of the diverging closure run: a well-formed state whose
knowledge base consists solely of `goodVal` sentences and still contains
both contradictory observation sentences and at least one singleton over
`(0,1)`.  Every closure pass from such a state appends a new sentence and
preserves the invariant. -/
abbrev PumpInv (st : AIState) : Prop :=
  WS st ∧
  (∀ v ∈ knowledgeVals st, goodVal v) ∧
  Sentence.mk {aCell, bCell} 7 ∈ knowledgeVals st ∧
  Sentence.mk {aCell, bCell} 4 ∈ knowledgeVals st ∧
  (∃ v ∈ knowledgeVals st, v.cells = {aCell})

theorem getD_mem_knowledgeVals (st : AIState) (i : ℕ) (hi : i ∈ st.knowledge) :
    st.store.getD i ⟨∅, 0⟩ ∈ knowledgeVals st :=
  List.mem_map_of_mem _ hi

theorem updKnown_id (f : Sentence → Sentence) (hf : ∀ s, f s = s) (ids : List ℕ) :
    ∀ (n : ℕ) (l : List Sentence), updKnown f ids n l = l := by
  intro n l
  induction l generalizing n with
  | nil => rfl
  | cons s rest ih =>
    unfold updKnown
    rw [ih]
    congr 1
    split
    · exact hf s
    · rfl

theorem markMinesSet_empty (st : AIState) : st.markMinesSet ∅ = st := by
  unfold AIState.markMinesSet
  rw [updKnown_id _ (fun s => by cases s; simp) _, Finset.union_empty]

theorem markSafesSet_empty (st : AIState) : st.markSafesSet ∅ = st := by
  unfold AIState.markSafesSet
  rw [updKnown_id _ (fun s => by cases s; simp) _, Finset.union_empty]

theorem goodVal_no_deduction (s : Sentence) (hg : goodVal s) :
    ((0 : ℤ), (0 : ℤ)) ∉ s.cells ∧ s.cells ≠ ∅ ∧
    s.known_mines = ∅ ∧ s.known_safes = ∅ := by
  rcases hg with ⟨hc, hn⟩ | ⟨hc, hmod⟩
  · refine ⟨by rw [hc]; decide, by rw [hc]; decide, ?_, ?_⟩
    · unfold Sentence.known_mines
      rw [if_neg]
      rcases hn with h | h <;> rw [hc, h] <;> decide
    · unfold Sentence.known_safes
      rw [if_neg]
      rcases hn with h | h <;> rw [h] <;> decide
  · have hcard : ((s.cells.card : ℤ)) = 1 := by
      rcases hc with hc | hc <;> rw [hc] <;> decide
    refine ⟨?_, ?_, ?_, ?_⟩
    · rcases hc with hc | hc <;> rw [hc] <;> decide
    · rcases hc with hc | hc <;> rw [hc] <;> decide
    · unfold Sentence.known_mines
      rw [if_neg]
      rw [hcard]
      omega
    · unfold Sentence.known_safes
      rw [if_neg]
      omega

theorem pump_processId (st : AIState) (ch : Bool) (i : ℕ)
    (hi : i ∈ st.knowledge) (hInv : PumpInv st) :
    processId (0, 0) (st, ch) i = some (st, ch) := by
  obtain ⟨h00, hne, hkm, hks⟩ :=
    goodVal_no_deduction _ (hInv.2.1 _ (getD_mem_knowledgeVals st i hi))
  simp only [List.getD_eq_getElem?_getD] at h00 hne hkm hks
  simp only [processId, List.getD_eq_getElem?_getD, if_neg h00, decide_eq_false h00,
    Bool.or_false, if_neg hne, hkm, hks, markMinesSet_empty, markSafesSet_empty,
    decide_not, decide_eq_true_eq]
  simp

theorem pump_phase1Go (st : AIState) (hInv : PumpInv st) :
    ∀ (ids : List ℕ) (ch : Bool), (∀ i ∈ ids, i ∈ st.knowledge) →
      phase1Go (0, 0) ids (st, ch) = some (st, ch) := by
  intro ids
  induction ids with
  | nil => intro ch _; rfl
  | cons i rest ih =>
    intro ch hsub
    unfold phase1Go
    rw [pump_processId st ch i (hsub i (List.mem_cons_self i rest)) hInv]
    exact ih ch (fun j hj => hsub j (List.mem_cons_of_mem i hj))

theorem pump_pair_derived (A B : Sentence) (gA : goodVal A) (gB : goodVal B)
    (hss : A.cells ⊂ B.cells) :
    (B.cells \ A.cells = {aCell} ∨ B.cells \ A.cells = {bCell}) ∧
    (B.count - A.count) % 3 = 2 := by
  rcases gA with ⟨hAc, hAn⟩ | ⟨hAc, hAmod⟩
  · exfalso
    rcases gB with ⟨hBc, _⟩ | ⟨hBc | hBc, _⟩ <;> rw [hAc, hBc] at hss <;>
      exact absurd hss (by decide)
  · rcases gB with ⟨hBc, hBn⟩ | ⟨hBc | hBc, _⟩
    · rcases hAc with hAc | hAc
      · refine ⟨Or.inr ?_, ?_⟩
        · rw [hAc, hBc]; decide
        · rcases hBn with h | h <;> rw [h] <;> omega
      · refine ⟨Or.inl ?_, ?_⟩
        · rw [hAc, hBc]; decide
        · rcases hBn with h | h <;> rw [h] <;> omega
    · exfalso
      rcases hAc with hAc | hAc <;> rw [hAc, hBc] at hss <;> exact absurd hss (by decide)
    · exfalso
      rcases hAc with hAc | hAc <;> rw [hAc, hBc] at hss <;> exact absurd hss (by decide)

theorem pump_derived_good (st : AIState) (hInv : PumpInv st) :
    ∀ d ∈ derivePairsAux (knowledgeVals st),
      (d.cells = {aCell} ∨ d.cells = {bCell}) ∧ d.count % 3 = 2 := by
  intro d hd
  obtain ⟨A, B, hA, hB, hss, rfl⟩ := mem_of_mem_derivePairsAux _ d hd
  exact pump_pair_derived A B (hInv.2.1 A hA) (hInv.2.1 B hB) hss

/-- The counts of the knowledge base's singleton sentences over `(0,1)`,
as a list. -/
def aCounts (st : AIState) : List ℤ :=
  (knowledgeVals st).filterMap
    (fun v => if v.cells = ({aCell} : Finset Cell) then some v.count else none)

theorem mem_aCounts_iff (st : AIState) (x : ℤ) :
    x ∈ aCounts st ↔ Sentence.mk {aCell} x ∈ knowledgeVals st := by
  unfold aCounts
  rw [List.mem_filterMap]
  constructor
  · rintro ⟨v, hv, hfx⟩
    split at hfx
    case isTrue hcells =>
      obtain ⟨cl, co⟩ := v
      obtain rfl : co = x := Option.some.inj hfx
      rw [show cl = ({aCell} : Finset Cell) from hcells] at hv
      exact hv
    case isFalse _ => cases hfx
  · intro hmem
    exact ⟨Sentence.mk {aCell} x, hmem, by simp⟩

theorem pump_aCounts_step (st : AIState) (hInv : PumpInv st)
    (hall : ∀ d ∈ derivePairsAux (knowledgeVals st), d ∈ knowledgeVals st)
    (x : ℤ) (hx : x ∈ aCounts st) : x - 3 ∈ aCounts st := by
  obtain ⟨hws, hgood, hab7, hab4, hex⟩ := hInv
  rw [mem_aCounts_iff] at hx ⊢
  have hd1 := mem_derivePairsAux (knowledgeVals st)
    (Sentence.mk {aCell} x) (Sentence.mk {aCell, bCell} 7) hx hab7
    (by show ({aCell} : Finset Cell) ⊂ {aCell, bCell}; decide)
  have hin1 := hall _ hd1
  rw [show ({aCell, bCell} : Finset Cell) \ {aCell} = {bCell} from by decide] at hin1
  have hd2 := mem_derivePairsAux (knowledgeVals st)
    (Sentence.mk {bCell} (7 - x)) (Sentence.mk {aCell, bCell} 4) hin1 hab4
    (by show ({bCell} : Finset Cell) ⊂ {aCell, bCell}; decide)
  have hin2 := hall _ hd2
  rw [show ({aCell, bCell} : Finset Cell) \ {bCell} = {aCell} from by decide,
      show (4 : ℤ) - (7 - x) = x - 3 from by ring] at hin2
  exact hin2

theorem pump_new_derived (st : AIState) (hInv : PumpInv st) :
    ∃ d ∈ derivePairsAux (knowledgeVals st), d ∉ knowledgeVals st := by
  by_contra hcon
  push_neg at hcon
  obtain ⟨v, hv, hvc⟩ := hInv.2.2.2.2
  have hx0 : v.count ∈ aCounts st := by
    rw [mem_aCounts_iff]
    obtain ⟨cl, co⟩ := v
    rw [show cl = ({aCell} : Finset Cell) from hvc] at hv
    exact hv
  have hTne : ((aCounts st).toFinset : Finset ℤ).Nonempty :=
    ⟨v.count, List.mem_toFinset.mpr hx0⟩
  have hmem3 : (aCounts st).toFinset.min' hTne - 3 ∈ (aCounts st).toFinset :=
    List.mem_toFinset.mpr
      (pump_aCounts_step st hInv hcon _
        (List.mem_toFinset.mp ((aCounts st).toFinset.min'_mem hTne)))
  have hle := (aCounts st).toFinset.min'_le _ hmem3
  omega

theorem appendNewGo_flag_true (l : List Sentence) :
    ∀ st, (appendNewGo st true l).2 = true := by
  induction l with
  | nil => intro st; rfl
  | cons s rest ih =>
    intro st
    unfold appendNewGo
    split
    · exact ih st
    · exact ih (appendSentence st s)

theorem appendNewGo_flag_of_new (l : List Sentence) :
    ∀ (st : AIState) (ch : Bool) (d : Sentence), d ∈ l → d ∉ knowledgeVals st →
      (appendNewGo st ch l).2 = true := by
  induction l with
  | nil => intro st ch d hd _; cases hd
  | cons s rest ih =>
    intro st ch d hd hnot
    unfold appendNewGo
    split
    case isTrue hmem =>
      rcases List.mem_cons.mp hd with rfl | hd2
      · exact absurd hmem hnot
      · exact ih st ch d hd2 hnot
    case isFalse _ => exact appendNewGo_flag_true rest (appendSentence st s)

theorem pump_appendSentence (st : AIState) (s : Sentence) (hInv : PumpInv st)
    (hs : (s.cells = {aCell} ∨ s.cells = {bCell}) ∧ s.count % 3 = 2) :
    PumpInv (appendSentence st s) := by
  obtain ⟨hws, hgood, hab7, hab4, hex⟩ := hInv
  have hvals := knowledgeVals_appendSentence st s hws
  refine ⟨WS_appendSentence st s hws, ?_, ?_, ?_, ?_⟩
  · intro v hv
    rw [hvals] at hv
    rcases List.mem_append.mp hv with hv | hv
    · exact hgood v hv
    · rw [List.mem_singleton] at hv
      subst hv
      exact Or.inr hs
  · rw [hvals]; exact List.mem_append_left _ hab7
  · rw [hvals]; exact List.mem_append_left _ hab4
  · obtain ⟨v, hv, hvc⟩ := hex
    exact ⟨v, by rw [hvals]; exact List.mem_append_left _ hv, hvc⟩

theorem pump_appendNewGo_inv (l : List Sentence)
    (hl : ∀ d ∈ l, (d.cells = {aCell} ∨ d.cells = {bCell}) ∧ d.count % 3 = 2) :
    ∀ (st : AIState) (ch : Bool), PumpInv st → PumpInv (appendNewGo st ch l).1 := by
  induction l with
  | nil => exact fun st ch hInv => hInv
  | cons s rest ih =>
    intro st ch hInv
    unfold appendNewGo
    split
    · exact ih (fun d hd => hl d (List.mem_cons_of_mem s hd)) st ch hInv
    · exact ih (fun d hd => hl d (List.mem_cons_of_mem s hd))
        (appendSentence st s) true
        (pump_appendSentence st s hInv (hl s (List.mem_cons_self s rest)))

theorem pump_onePass (st : AIState) (hInv : PumpInv st) :
    onePass (0, 0) st = some ((inferStep st false).1, true) ∧
    PumpInv (inferStep st false).1 := by
  have h1 : phase1Go (0, 0) st.knowledge (st, false) = some (st, false) :=
    pump_phase1Go st hInv st.knowledge false (fun i hi => hi)
  obtain ⟨d, hd, hdnot⟩ := pump_new_derived st hInv
  have hflag : (inferStep st false).2 = true :=
    appendNewGo_flag_of_new _ st false d hd hdnot
  constructor
  · unfold onePass
    rw [h1]
    show some (inferStep st false) = some ((inferStep st false).1, true)
    rw [← hflag, Prod.mk.eta]
  · exact pump_appendNewGo_inv _ (pump_derived_good st hInv) st false hInv

theorem pump_closure_diverges (fuel : ℕ) :
    ∀ st, PumpInv st → closureLoop (0, 0) fuel st = RunResult.outOfFuel := by
  induction fuel with
  | zero => intro st _; rfl
  | succ n ih =>
    intro st hInv
    obtain ⟨hpass, hInv2⟩ := pump_onePass st hInv
    unfold closureLoop
    rw [hpass]
    exact ih _ hInv2

/-- C2: the closure procedure does not terminate on every finite observation
sequence.  On a 1x5 board, after the two contradictory observations
`add_knowledge((0,2), 7)` and `add_knowledge((0,2), 4)` (both of which
stabilize normally), the call `add_knowledge((0,0), 5)` runs forever: from
the state entering its closure loop, every pass derives a singleton sentence
not yet present (the counts over `(0,1)` and `(0,3)` are pumped by plus and
minus 3 without ever hitting a trivial-deduction count), so the
`possible_inference` flag is set on every pass and no fuel bound is ever
enough.  This refutes the spec's claimed termination guarantee: the set of
distinct constraints is not finite, because derived counts are unbounded
integers. -/
theorem closure_nontermination :
    ∀ fuel : ℕ,
      runObs fuel [((0, 2), 7), ((0, 2), 4), ((0, 0), 5)] (initEngine 1 5) =
        RunResult.outOfFuel := by
  intro fuel
  cases fuel with
  | zero => rfl
  | succ n =>
    have e1 : onePass (0, 2) (observeStep (initEngine 1 5) (0, 2) 7) =
        some (observeStep (initEngine 1 5) (0, 2) 7, false) := by decide
    have c1 : closureLoop (0, 2) (n + 1) (observeStep (initEngine 1 5) (0, 2) 7) =
        RunResult.ok (observeStep (initEngine 1 5) (0, 2) 7) := by
      unfold closureLoop
      rw [e1]
    have e2 : onePass (0, 2)
        (observeStep (observeStep (initEngine 1 5) (0, 2) 7) (0, 2) 4) =
        some (observeStep (observeStep (initEngine 1 5) (0, 2) 7) (0, 2) 4, false) := by
      decide
    have c2 : closureLoop (0, 2) (n + 1)
        (observeStep (observeStep (initEngine 1 5) (0, 2) 7) (0, 2) 4) =
        RunResult.ok (observeStep (observeStep (initEngine 1 5) (0, 2) 7) (0, 2) 4) := by
      unfold closureLoop
      rw [e2]
    have hInv : PumpInv (observeStep
        (observeStep (observeStep (initEngine 1 5) (0, 2) 7) (0, 2) 4) (0, 0) 5) := by
      decide
    have c3 := pump_closure_diverges (n + 1) _ hInv
    simp only [runObs, add_knowledge, c1, c2, c3]
